import Mathlib

/-!
Verification of the compilation-and-execution core of a small register VM:
a compiler from a restricted expression language into a flat instruction
sequence, and the sequential interpreter for those instructions
(`src/lib/vm.rs`).  The environment, the dynamic value type and its
addition are external collaborators of this core; they are modelled from
the specification's capability interface.
-/

namespace BoaVM

/-- The index of a register: an 8-bit unsigned index into the file of 256
registers, as in `Register(u8)` in the source. -/
abbrev Register := Fin 256

/-- Modelled from the spec: the dynamic value representation
(`builtins::value::ValueData`) is external to this core.  The core only
ever stores the undefined sentinel (initial register content) and 32-bit
integers (`ValueData::Integer`), so the model carries exactly those. -/
inductive ValueData where
  | undefined
  | integer (i : Int)
deriving DecidableEq

/-- The instruction set, mirroring `enum Instruction` in the source.
Identifiers are carried as plain strings. -/
inductive Instruction where
  | getName (target : Register) (name : String)
  | setName (name : String) (source : Register)
  | add (target : Register) (left : Register) (right : Register)
  | intLiteral (target : Register) (value : Int)
deriving DecidableEq

/-- Run-time errors of the execution core, per the spec's error taxonomy:
an unbound-variable read, or a failure of the external value addition. -/
inductive RunError where
  | unboundReference (name : String)
  | valueOperationFailure
deriving DecidableEq

/-- Modelled from the spec: the binding environment
(`environment::lexical_environment`) is external to this core; it is a
mapping from names to values consumed through a capability interface. -/
abbrev Environment := String → Option ValueData

/-- Modelled from the spec: `hasBinding(name) -> bool`. -/
def hasBinding (env : Environment) (name : String) : Bool :=
  (env name).isSome

/-- Modelled from the spec: `getBindingValue(name) -> Value`, which fails
with a ReferenceError-class failure if the name is unbound. -/
def getBindingValue (env : Environment) (name : String) : Except RunError ValueData :=
  match env name with
  | some v => .ok v
  | none => .error (.unboundReference name)

/-- Modelled from the spec: `setMutableBinding(name, value, isStrict)`
updates an existing binding's value. -/
def setMutableBinding (env : Environment) (name : String) (value : ValueData) : Environment :=
  fun m => if m = name then some value else env m

/-- Modelled from the spec: `createMutableBinding(name, isDeletable,
scopeKind)` registers a new mutable binding, not yet given its value. -/
def createMutableBinding (env : Environment) (name : String) : Environment :=
  fun m => if m = name then some .undefined else env m

/-- Modelled from the spec: `initializeBinding(name, value)` gives a newly
created binding its first value. -/
def initBinding (env : Environment) (name : String) (value : ValueData) : Environment :=
  fun m => if m = name then some value else env m

/-- Modelled from the spec: the external value type's addition.  Its
coercion semantics are owned by the external value model; inside this core
only integer addition is exercised, and any other combination surfaces as
a ValueOperationFailure propagated unchanged. -/
def ValueData.addValue : ValueData → ValueData → Except RunError ValueData
  | .integer i, .integer j => .ok (.integer (i + j))
  | _, _ => .error .valueOperationFailure

/-- The VM state: the realm's environment together with the register file
of 256 value slots (`struct VM { realm, registers }`). -/
structure VM where
  environment : Environment
  registers : Register → ValueData

/-- `VM::new`: a fresh register file with every slot holding the undefined
sentinel, over the caller-supplied environment. -/
def VM.new (env : Environment) : VM :=
  { environment := env, registers := fun _ => .undefined }

/-- `VM::get`: read one register. -/
def VM.get (vm : VM) (register : Register) : ValueData :=
  vm.registers register

/-- `VM::set`: overwrite one register, leaving the others unchanged. -/
def VM.set (vm : VM) (target : Register) (value : ValueData) : VM :=
  { vm with registers := fun r => if r = target then value else vm.registers r }

/-- One dispatch step of `VM::run`: execute a single instruction,
producing the successor state or a propagated failure. -/
def step (vm : VM) (instr : Instruction) : Except RunError VM :=
  match instr with
  | .getName target name =>
      match getBindingValue vm.environment name with
      | .ok v => .ok (vm.set target v)
      | .error e => .error e
  | .setName name source =>
      let val := vm.get source
      if hasBinding vm.environment name then
        .ok { vm with environment := setMutableBinding vm.environment name val }
      else
        .ok { vm with
              environment := initBinding (createMutableBinding vm.environment name) name val }
  | .add target left right =>
      match ValueData.addValue (vm.get left) (vm.get right) with
      | .ok v => .ok (vm.set target v)
      | .error e => .error e
  | .intLiteral target value =>
      .ok (vm.set target (.integer value))

/-- The while loop of `VM::run`: the instruction pointer `index` starts at
0 and advances by exactly one position after each instruction executes;
a failing step halts execution immediately. -/
def runLoop (vm : VM) (instructions : List Instruction) (index : Nat) : Except RunError VM :=
  if h : index < instructions.length then
    match step vm (instructions.get ⟨index, h⟩) with
    | .ok vm1 => runLoop vm1 instructions (index + 1)
    | .error e => .error e
  else
    .ok vm
termination_by instructions.length - index

/-- `VM::run`: run the loop from index 0 and, on success, return whatever
is left in register 0. -/
def VM.run (vm : VM) (instructions : List Instruction) : Except RunError ValueData :=
  (runLoop vm instructions 0).map (fun vm1 => vm1.get 0)

/-- Sequential execution one instruction at a time, in list order.  Used
as the reference form of the while loop for the proofs below. -/
def runList (vm : VM) : List Instruction → Except RunError VM
  | [] => .ok vm
  | i :: rest =>
      match step vm i with
      | .ok vm1 => runList vm1 rest
      | .error e => .error e

/-- Model of the Rust `f64` values that can appear as a non-integer-typed
numeric constant: NaN, the two infinities, or a finite value.  Every
finite `f64` is an exact (dyadic) rational, so finite values are carried
as exact rationals; the IEEE comparisons below are exact on them. -/
inductive FloatVal where
  | nan
  | posInf
  | negInf
  | finite (q : ℚ)
deriving DecidableEq

/-- `f64::is_nan`. -/
def FloatVal.isNan : FloatVal → Bool
  | .nan => true
  | _ => false

/-- IEEE `f > c` for an exact rational bound `c` (false on NaN). -/
def FloatVal.gtQ : FloatVal → ℚ → Bool
  | .nan, _ => false
  | .posInf, _ => true
  | .negInf, _ => false
  | .finite q, c => decide (c < q)

/-- IEEE `f < c` for an exact rational bound `c` (false on NaN). -/
def FloatVal.ltQ : FloatVal → ℚ → Bool
  | .nan, _ => false
  | .posInf, _ => false
  | .negInf, _ => true
  | .finite q, c => decide (q < c)

/-- The Rust test `f.fract() != 0.0`: `fract` of NaN or an infinity is
NaN, and `NaN != 0.0` holds, so those report true; a finite value has a
zero fractional part exactly when it is an integer (denominator 1). -/
def FloatVal.fractNeZero : FloatVal → Bool
  | .nan => true
  | .posInf => true
  | .negInf => true
  | .finite q => decide (q.den ≠ 1)

/-- Truncation of a rational toward zero, as `f64` to `i32` conversion
truncates. -/
def ratTrunc (q : ℚ) : Int :=
  if 0 ≤ q then ⌊q⌋ else ⌈q⌉

/-- The Rust saturating cast `f as i32`.  In the compiler it is only
reached on values already checked to be in-range integers, where it is
exactly the value itself. -/
def FloatVal.toI32 : FloatVal → Int
  | .nan => 0
  | .posInf => 2147483647
  | .negInf => -2147483648
  | .finite q => min 2147483647 (max (-2147483648) (ratTrunc q))

/-- IEEE `f ≤ c` (false on NaN); used to state the spec's phrase "lies
within the 32-bit signed range". -/
def FloatVal.leQ : FloatVal → ℚ → Bool
  | .nan, _ => false
  | .posInf, _ => false
  | .negInf, _ => true
  | .finite q, c => decide (q ≤ c)

/-- IEEE `f ≥ c` (false on NaN). -/
def FloatVal.geQ : FloatVal → ℚ → Bool
  | .nan, _ => false
  | .posInf, _ => true
  | .negInf, _ => false
  | .finite q, c => decide (c ≤ q)

/-- The spec's phrase "lies within `[i32::MIN, i32::MAX]`", read as the
IEEE interval membership test (false on NaN). -/
def FloatVal.inI32Range (f : FloatVal) : Bool :=
  f.geQ (-2147483648) && f.leQ 2147483647

/-- The spec's phrase "has zero fractional part", read as the IEEE test
`f.fract() == 0.0` (false on NaN and the infinities). -/
def FloatVal.fractIsZero : FloatVal → Bool
  | .nan => false
  | .posInf => false
  | .negInf => false
  | .finite q => decide (q.den = 1)

/-- Constant nodes of the expression tree (`ast::constant::Const`),
restricted to the two shapes the compiler interprets: integer-typed and
numeric (floating) constants. -/
inductive Const where
  | int (value : Int)
  | num (value : FloatVal)
deriving DecidableEq

/-- The expression tree (`ast::expr::ExprDef`) shapes the compiler has
translation rules for: constants, variable reads (`Local`), assignments,
additive binary operations (`BinOp(Num(Add))`), and sequential blocks.
Every other node shape is rejected by the compiler's catch-all arm, which
is modelled by `assignOther` below standing for an assignment target that
is not a simple variable. -/
inductive Expr where
  | const (c : Const)
  | localVar (name : String)
  | assign (target : Expr) (value : Expr)
  | binOpAdd (left : Expr) (right : Expr)
  | block (exprs : List Expr)

/-- Compile-time errors, per the spec's taxonomy: an expression shape or
constant with no translation rule, or running out of registers in the
linear allocation of nested additive operations.  The source reports both
by aborting compilation (`unimplemented!` / `panic!`). -/
inductive CompileError where
  | unsupportedConstruct
  | registerExhaustion
deriving DecidableEq

mutual

/-- `compile_expr(target, expr, out)`: append the instructions computing
`expr` into register `target` onto `out`, or fail. -/
def compile_expr (target : Register) (expr : Expr) (out : List Instruction) :
    Except CompileError (List Instruction) :=
  match expr with
  | .const (.int value) => .ok (out ++ [.intLiteral target value])
  | .const (.num f) =>
      if f.isNan || f.gtQ 2147483647 || f.ltQ (-2147483648) || f.fractNeZero then
        .error .unsupportedConstruct
      else
        .ok (out ++ [.intLiteral target f.toI32])
  | .localVar name => .ok (out ++ [.getName target name])
  | .assign targetExpr valueExpr =>
      match targetExpr with
      | .localVar name =>
          match compile_expr target valueExpr out with
          | .ok out1 => .ok (out1 ++ [.setName name target])
          | .error e => .error e
      | _ => .error .unsupportedConstruct
  | .binOpAdd left right =>
      match compile_expr target left out with
      | .error e => .error e
      | .ok out1 =>
          if h : target.val = 255 then
            .error .registerExhaustion
          else
            let tmp : Register := ⟨target.val + 1, by have := target.2; omega⟩
            match compile_expr tmp right out1 with
            | .error e => .error e
            | .ok out2 => .ok (out2 ++ [.add target target tmp])
  | .block exprs => compileBlock target exprs out

/-- The `Block` arm of `compile_expr`: compile each sub-expression in
order into the same target register. -/
def compileBlock (target : Register) (exprs : List Expr) (out : List Instruction) :
    Except CompileError (List Instruction) :=
  match exprs with
  | [] => .ok out
  | e :: rest =>
      match compile_expr target e out with
      | .ok out1 => compileBlock target rest out1
      | .error e1 => .error e1

end

/-- `compile(expr)`: compile the whole tree into register 0 starting from
an empty instruction sequence. -/
def compile (expr : Expr) : Except CompileError (List Instruction) :=
  compile_expr 0 expr []

/-- The registers an instruction refers to. -/
def Instruction.registersMentioned : Instruction → List Register
  | .getName t _ => [t]
  | .setName _ s => [s]
  | .add t l r => [t, l, r]
  | .intLiteral t _ => [t]

/-- The register an instruction writes, if any: `SetName` writes none. -/
def Instruction.targetRegisterOpt : Instruction → Option Register
  | .getName t _ => some t
  | .setName _ _ => none
  | .add t _ _ => some t
  | .intLiteral t _ => some t

/-- The environment binding an instruction reads or writes, if any. -/
def Instruction.nameTouched : Instruction → Option String
  | .getName _ n => some n
  | .setName n _ => some n
  | .add _ _ _ => none
  | .intLiteral _ _ => none

/-- A right-nested chain of `k` additive operations over integer-literal
leaves: `chain 0` is a leaf, `chain (k+1)` is `1 + chain k`. -/
def chain : Nat → Expr
  | 0 => .const (.int 1)
  | k + 1 => .binOpAdd (.const (.int 1)) (chain k)

/-- The empty environment, with no bindings at all. -/
def emptyEnv : Environment := fun _ => none

/-- The spec's end-to-end example tree: the block of `x = 3` and `x + x`. -/
def prog6 : Expr :=
  .block [.assign (.localVar "x") (.const (.int 3)), .binOpAdd (.localVar "x") (.localVar "x")]

/-- Dropping `n` elements of a list with `n` in bounds exposes the `n`-th
element as the head of the remainder. -/
theorem drop_eq_cons {α : Type} (l : List α) (n : Nat) (h : n < l.length) :
    l.drop n = l.get ⟨n, h⟩ :: l.drop (n + 1) := by
  induction l generalizing n with
  | nil => simp at h
  | cons a as ih =>
      cases n with
      | zero => simp
      | succ m =>
          have h2 : m < as.length := by simpa using h
          exact ih m h2

/-- The while loop of `VM::run`, entered at position `index`, executes
exactly the instructions from `index` on, one at a time in order. -/
theorem runLoop_eq_drop (instructions : List Instruction) (index : Nat) (vm : VM) :
    runLoop vm instructions index = runList vm (instructions.drop index) := by
  rw [runLoop]
  split
  · next h =>
      rw [drop_eq_cons instructions index h, runList]
      cases hs : step vm (instructions.get ⟨index, h⟩) with
      | ok vm1 => simpa using runLoop_eq_drop instructions (index + 1) vm1
      | error e => simp
  · next h =>
      rw [List.drop_eq_nil_of_le (Nat.le_of_not_lt h), runList]
termination_by instructions.length - index

/-- `VM::run` is sequential execution of every instruction in order,
followed (on success) by reading register 0. -/
theorem run_as_runList (vm : VM) (instructions : List Instruction) :
    VM.run vm instructions = (runList vm instructions).map (fun vm1 => vm1.get 0) := by
  rw [VM.run, runLoop_eq_drop]
  rfl

/-- Sequential execution of a concatenation runs the first part to
completion and continues with the second from the resulting state; a
failure in the first part is the failure of the whole. -/
theorem runList_append (a b : List Instruction) (vm : VM) :
    runList vm (a ++ b) = (runList vm a).bind (fun vm1 => runList vm1 b) := by
  induction a generalizing vm with
  | nil => simp [runList, Except.bind]
  | cons i rest ih =>
      rw [List.cons_append, runList.eq_def]
      conv_rhs => rw [runList.eq_def]
      simp only
      cases step vm i with
      | ok vm1 => simpa [Except.bind] using ih vm1
      | error e => simp [Except.bind]

mutual

/-- The compiler only appends: compiling into any accumulator `out` gives
the same result as compiling from an empty sequence and prefixing `out`,
both on success and on failure. -/
theorem compile_expr_acc (target : Register) (expr : Expr) (out : List Instruction) :
    compile_expr target expr out =
      (compile_expr target expr []).map (fun em => out ++ em) := by
  cases expr with
  | const c =>
      cases c with
      | int v => simp [compile_expr, Except.map]
      | num f =>
          rw [compile_expr.eq_def, compile_expr.eq_def]
          by_cases hg :
            (f.isNan || f.gtQ 2147483647 || f.ltQ (-2147483648) || f.fractNeZero) = true
          · simp [hg, Except.map]
          · simp [hg, Except.map]
  | localVar n => simp [compile_expr, Except.map]
  | assign tgt v =>
      cases tgt with
      | localVar name =>
          rw [compile_expr.eq_def, compile_expr.eq_def]
          simp only
          rw [compile_expr_acc target v out]
          cases compile_expr target v [] <;> simp [Except.map]
      | const c => simp [compile_expr, Except.map]
      | assign a b => simp [compile_expr, Except.map]
      | binOpAdd a b => simp [compile_expr, Except.map]
      | block es => simp [compile_expr, Except.map]
  | binOpAdd l r =>
      rw [compile_expr.eq_def, compile_expr.eq_def]
      simp only
      rw [compile_expr_acc target l out]
      cases hl : compile_expr target l [] with
      | error e => simp [Except.map]
      | ok em1 =>
          simp only [Except.map]
          by_cases h : target.val = 255
          · simp [h]
          · have hlt : target.val + 1 < 256 := by have := target.2; omega
            simp only [dif_neg h]
            rw [compile_expr_acc ⟨target.val + 1, hlt⟩ r (out ++ em1),
              compile_expr_acc ⟨target.val + 1, hlt⟩ r em1]
            cases compile_expr ⟨target.val + 1, hlt⟩ r [] <;>
              simp [Except.map, List.append_assoc]
  | block es =>
      rw [compile_expr.eq_def, compile_expr.eq_def]
      exact compileBlock_acc target es out

/-- Accumulator lemma for the block compilation loop. -/
theorem compileBlock_acc (target : Register) (es : List Expr) (out : List Instruction) :
    compileBlock target es out =
      (compileBlock target es []).map (fun em => out ++ em) := by
  cases es with
  | nil => simp [compileBlock, Except.map]
  | cons e rest =>
      rw [compileBlock.eq_def, compileBlock.eq_def]
      simp only
      rw [compile_expr_acc target e out]
      cases compile_expr target e [] with
      | error e1 => simp [Except.map]
      | ok em1 =>
          simp only [Except.map]
          rw [compileBlock_acc target rest (out ++ em1), compileBlock_acc target rest em1]
          cases compileBlock target rest [] <;> simp [Except.map, List.append_assoc]

end

/-- On success, compilation appends a suffix of emitted instructions that
does not depend on the accumulator. -/
theorem compile_expr_emits (target : Register) (expr : Expr) (out res : List Instruction)
    (h : compile_expr target expr out = .ok res) :
    ∃ em, compile_expr target expr [] = .ok em ∧ res = out ++ em := by
  rw [compile_expr_acc] at h
  cases he : compile_expr target expr [] with
  | ok em =>
      rw [he] at h
      exact ⟨em, rfl, by simpa [Except.map] using h.symm⟩
  | error e => rw [he] at h; simp [Except.map] at h

/-- On failure, compilation fails the same way from any accumulator. -/
theorem compile_expr_fails (target : Register) (expr : Expr) (out : List Instruction)
    (e : CompileError) (h : compile_expr target expr [] = .error e) :
    compile_expr target expr out = .error e := by
  rw [compile_expr_acc, h]
  rfl

/-- Compiling a concatenation of block sub-expressions compiles the first
part to completion and continues with the second from the accumulated
sequence; a failure in the first part is the failure of the whole. -/
theorem compileBlock_append (target : Register) (a b : List Expr) (out : List Instruction) :
    compileBlock target (a ++ b) out =
      match compileBlock target a out with
      | .ok mid => compileBlock target b mid
      | .error e => .error e := by
  induction a generalizing out with
  | nil => simp [compileBlock]
  | cons e rest ih =>
      rw [List.cons_append, compileBlock.eq_def]
      conv_rhs => rw [compileBlock.eq_def]
      simp only
      cases compile_expr target e out with
      | ok out1 => exact ih out1
      | error e1 => rfl

/-- Compiling a right-nested chain of `k` additive operations into
register `t` succeeds while `t + k` stays within the register file, every
register the emitted instructions mention is at most `t + k`, and
register `t + k` itself is mentioned. -/
theorem chain_compile_ok (k : Nat) : ∀ t : Register, t.val + k ≤ 255 →
    ∃ em, compile_expr t (chain k) [] = .ok em
      ∧ (∀ i ∈ em, ∀ rg ∈ i.registersMentioned, rg.val ≤ t.val + k)
      ∧ (∃ i ∈ em, ∃ rg ∈ i.registersMentioned, rg.val = t.val + k) := by
  induction k with
  | zero =>
      intro t ht
      refine ⟨[.intLiteral t 1], by simp [chain, compile_expr], ?_, ?_⟩
      · intro i hi rg hrg
        simp only [List.mem_singleton] at hi
        subst hi
        simp only [Instruction.registersMentioned, List.mem_singleton] at hrg
        subst hrg
        omega
      · exact ⟨.intLiteral t 1, by simp, t, by simp [Instruction.registersMentioned], by omega⟩
  | succ k ih =>
      intro t ht
      have h255 : ¬ t.val = 255 := by omega
      have hlt : t.val + 1 < 256 := by have := t.2; omega
      obtain ⟨em, hem, hbound, hreach⟩ := ih ⟨t.val + 1, hlt⟩ (by simp only [Fin.val_mk]; omega)
      refine ⟨[.intLiteral t 1] ++ em ++ [.add t t ⟨t.val + 1, hlt⟩], ?_, ?_, ?_⟩
      · rw [chain, compile_expr.eq_def]
        simp only
        rw [show compile_expr t (.const (.int 1)) [] = .ok [.intLiteral t 1] from by
          simp [compile_expr]]
        simp only [dif_neg h255]
        rw [compile_expr_acc ⟨t.val + 1, hlt⟩ (chain k) [.intLiteral t 1], hem]
        simp [Except.map]
      · intro i hi rg hrg
        simp only [List.mem_append, List.mem_singleton] at hi
        rcases hi with (hi | hi) | hi
        · subst hi
          simp only [Instruction.registersMentioned, List.mem_singleton] at hrg
          subst hrg; omega
        · have := hbound i hi rg hrg
          simp only [Fin.val_mk] at this
          omega
        · subst hi
          simp only [Instruction.registersMentioned, List.mem_cons,
            List.not_mem_nil, or_false] at hrg
          rcases hrg with hrg | hrg | hrg
          · subst hrg; omega
          · subst hrg; omega
          · subst hrg; simp only [Fin.val_mk]; omega
      · obtain ⟨i, hi, rg, hrg, hval⟩ := hreach
        refine ⟨i, by simp [hi], rg, hrg, ?_⟩
        simp only [Fin.val_mk] at hval
        omega

/-- Compiling a right-nested chain of `k` additive operations into
register `t` fails with RegisterExhaustion as soon as it would need a
register past index 255. -/
theorem chain_compile_err (k : Nat) : ∀ t : Register, 255 < t.val + k →
    compile_expr t (chain k) [] = .error .registerExhaustion := by
  induction k with
  | zero =>
      intro t ht
      exact absurd ht (by have := t.2; omega)
  | succ k ih =>
      intro t ht
      rw [chain, compile_expr.eq_def]
      simp only
      rw [show compile_expr t (.const (.int 1)) [] = .ok [.intLiteral t 1] from by
        simp [compile_expr]]
      by_cases h255 : t.val = 255
      · simp [h255]
      · have hlt : t.val + 1 < 256 := by have := t.2; omega
        simp only [dif_neg h255]
        have herr := ih ⟨t.val + 1, hlt⟩ (by simp only [Fin.val_mk]; omega)
        rw [compile_expr_fails ⟨t.val + 1, hlt⟩ (chain k) [.intLiteral t 1] _ herr]

/-- C1: if execution reaches a `GetName` instruction whose name has no
binding in the environment at that point, the environment read's failure
propagates as the run's result (an UnboundReference error); the same
error results whatever instructions follow, so execution halts at that
instruction with no further instructions executed, and the failing step
itself produces no successor state, so no register is mutated by it. -/
theorem c1_unbound_getName_fails_run (vm vm1 : VM) (p suffix : List Instruction)
    (t : Register) (n : String) (h1 : runList vm p = .ok vm1)
    (h2 : vm1.environment n = none) :
    VM.run vm (p ++ .getName t n :: suffix) = .error (.unboundReference n)
      ∧ step vm1 (.getName t n) = .error (.unboundReference n) := by
  have hstep : step vm1 (.getName t n) = .error (.unboundReference n) := by
    simp [step, getBindingValue, h2]
  refine ⟨?_, hstep⟩
  rw [run_as_runList, runList_append, h1]
  simp only [Except.bind]
  rw [runList.eq_def]
  simp [hstep, Except.map]

/-- Witness for C1: running `GetName r0 "y"` against the empty
environment fails with UnboundReference even though an `IntLiteral`
instruction follows it. -/
theorem c1_unbound_getName_fails_run_witness :
    VM.run (VM.new emptyEnv) ([] ++ .getName 0 "y" :: [.intLiteral 0 7])
        = .error (.unboundReference "y")
      ∧ step (VM.new emptyEnv) (.getName 0 "y") = .error (.unboundReference "y") :=
  c1_unbound_getName_fails_run (VM.new emptyEnv) (VM.new emptyEnv) []
    [.intLiteral 0 7] 0 "y" rfl rfl

/-- C7: executing `SetName{name, source}` never fails; it reads the
source register's current value, leaves every register unchanged, and
afterwards the binding for `name` reads back as that value while every
other binding is untouched.  If a binding already existed it is updated
via the mutable-set capability; otherwise a new mutable binding is
created and initialized with the value. -/
theorem c7_setName_updates_or_creates_binding (vm : VM) (name : String) (source : Register) :
    ∃ env1, step vm (.setName name source) = .ok { environment := env1, registers := vm.registers }
      ∧ getBindingValue env1 name = .ok (vm.get source)
      ∧ (∀ m, m ≠ name → env1 m = vm.environment m)
      ∧ (hasBinding vm.environment name = true →
          env1 = setMutableBinding vm.environment name (vm.get source))
      ∧ (hasBinding vm.environment name = false →
          env1 = initBinding (createMutableBinding vm.environment name) name (vm.get source)) := by
  by_cases hb : hasBinding vm.environment name
  · refine ⟨setMutableBinding vm.environment name (vm.get source), ?_, ?_, ?_, ?_, ?_⟩
    · simp [step, hb]
    · simp [getBindingValue, setMutableBinding]
    · intro m hm
      simp [setMutableBinding, hm]
    · intro _
      rfl
    · intro hc
      rw [hb] at hc
      cases hc
  · refine ⟨initBinding (createMutableBinding vm.environment name) name (vm.get source),
      ?_, ?_, ?_, ?_, ?_⟩
    · simp [step, hb]
    · simp [getBindingValue, initBinding]
    · intro m hm
      simp [initBinding, createMutableBinding, hm]
    · intro hc
      rw [Bool.not_eq_true] at hb
      rw [hb] at hc
      cases hc
    · intro _
      rfl

/-- Witness for C7 at a concrete state: writing register 0's value to the
name `x` over the empty environment. -/
theorem c7_setName_updates_or_creates_binding_witness :
    ∃ env1, step (VM.new emptyEnv) (.setName "x" 0)
          = .ok { environment := env1, registers := (VM.new emptyEnv).registers }
      ∧ getBindingValue env1 "x" = .ok ((VM.new emptyEnv).get 0)
      ∧ (∀ m, m ≠ "x" → env1 m = (VM.new emptyEnv).environment m)
      ∧ (hasBinding (VM.new emptyEnv).environment "x" = true →
          env1 = setMutableBinding (VM.new emptyEnv).environment "x" ((VM.new emptyEnv).get 0))
      ∧ (hasBinding (VM.new emptyEnv).environment "x" = false →
          env1 = initBinding (createMutableBinding (VM.new emptyEnv).environment "x") "x"
            ((VM.new emptyEnv).get 0)) :=
  c7_setName_updates_or_creates_binding (VM.new emptyEnv) "x" 0

/-- C8: for every instruction sequence, `run` terminates with a result:
the while loop starting at instruction pointer 0 executes exactly the
instructions of the sequence, one at a time in sequence order
(`runList`), and when every instruction succeeds the run returns the
value then in register 0 wrapped as success. -/
theorem c8_run_sequential_and_terminates (vm : VM) (instructions : List Instruction) :
    VM.run vm instructions = (runList vm instructions).map (fun vm1 => vm1.get 0)
      ∧ ((∃ v, VM.run vm instructions = .ok v) ∨ (∃ e, VM.run vm instructions = .error e)) := by
  refine ⟨run_as_runList vm instructions, ?_⟩
  cases h : VM.run vm instructions with
  | ok v => exact Or.inl ⟨v, rfl⟩
  | error e => exact Or.inr ⟨e, rfl⟩

/-- C9: a successfully executed instruction changes no register other
than its target register (`SetName`, which has no target register,
changes none at all), and reads or writes no environment binding other
than the one it names (`Add` and `IntLiteral` name none and leave the
environment untouched).  The state has no other components, so there is
no other side effect. -/
theorem c9_step_frame_conditions (vm : VM) (i : Instruction) (vm1 : VM)
    (h : step vm i = .ok vm1) :
    (∀ r : Register, i.targetRegisterOpt ≠ some r → vm1.registers r = vm.registers r)
      ∧ (i.targetRegisterOpt = none → vm1.registers = vm.registers)
      ∧ (∀ n : String, i.nameTouched ≠ some n → vm1.environment n = vm.environment n)
      ∧ (i.nameTouched = none → vm1.environment = vm.environment) := by
  cases i with
  | getName t n =>
      cases hg : getBindingValue vm.environment n with
      | error e => rw [step, hg] at h; cases h
      | ok v =>
          rw [step, hg] at h
          cases h
          refine ⟨?_, ?_, fun _ _ => rfl, ?_⟩
          · intro r hr
            have hrt : ¬ r = t := fun he => hr (by rw [Instruction.targetRegisterOpt, he])
            simp [VM.set, hrt]
          · intro hc
            simp [Instruction.targetRegisterOpt] at hc
          · intro hc
            simp [Instruction.nameTouched] at hc
  | setName n s =>
      rw [step] at h
      by_cases hb : hasBinding vm.environment n
      · rw [if_pos hb] at h
        cases h
        refine ⟨fun _ _ => rfl, fun _ => rfl, ?_, ?_⟩
        · intro m hm
          have hmn : ¬ m = n := fun he => hm (by rw [Instruction.nameTouched, he])
          simp [setMutableBinding, hmn]
        · intro hc
          simp [Instruction.nameTouched] at hc
      · rw [if_neg hb] at h
        cases h
        refine ⟨fun _ _ => rfl, fun _ => rfl, ?_, ?_⟩
        · intro m hm
          have hmn : ¬ m = n := fun he => hm (by rw [Instruction.nameTouched, he])
          simp [initBinding, createMutableBinding, hmn]
        · intro hc
          simp [Instruction.nameTouched] at hc
  | add t l r =>
      cases ha : ValueData.addValue (vm.get l) (vm.get r) with
      | error e => rw [step, ha] at h; cases h
      | ok v =>
          rw [step, ha] at h
          cases h
          refine ⟨?_, ?_, fun _ _ => rfl, fun _ => rfl⟩
          · intro r1 hr1
            have hrt : ¬ r1 = t := fun he => hr1 (by rw [Instruction.targetRegisterOpt, he])
            simp [VM.set, hrt]
          · intro hc
            simp [Instruction.targetRegisterOpt] at hc
  | intLiteral t v =>
      rw [step] at h
      cases h
      refine ⟨?_, ?_, fun _ _ => rfl, fun _ => rfl⟩
      · intro r hr
        have hrt : ¬ r = t := fun he => hr (by rw [Instruction.targetRegisterOpt, he])
        simp [VM.set, hrt]
      · intro hc
        simp [Instruction.targetRegisterOpt] at hc

/-- Witness for C9 at a concrete step: storing the literal 5 into
register 0 of a fresh VM. -/
theorem c9_step_frame_conditions_witness :
    (∀ r : Register, (Instruction.intLiteral 0 5).targetRegisterOpt ≠ some r →
        ((VM.new emptyEnv).set 0 (.integer 5)).registers r = (VM.new emptyEnv).registers r)
      ∧ ((Instruction.intLiteral 0 5).targetRegisterOpt = none →
          ((VM.new emptyEnv).set 0 (.integer 5)).registers = (VM.new emptyEnv).registers)
      ∧ (∀ n : String, (Instruction.intLiteral 0 5).nameTouched ≠ some n →
          ((VM.new emptyEnv).set 0 (.integer 5)).environment n = (VM.new emptyEnv).environment n)
      ∧ ((Instruction.intLiteral 0 5).nameTouched = none →
          ((VM.new emptyEnv).set 0 (.integer 5)).environment = (VM.new emptyEnv).environment) :=
  c9_step_frame_conditions (VM.new emptyEnv) (.intLiteral 0 5)
    ((VM.new emptyEnv).set 0 (.integer 5)) rfl

/-- C10: compiling an empty block emits no instructions, and running the
empty instruction sequence on a freshly constructed VM succeeds and
returns the undefined sentinel that initially fills register 0. -/
theorem c10_empty_program_returns_undefined (env : Environment) :
    compile (.block []) = .ok [] ∧ VM.run (VM.new env) [] = .ok .undefined := by
  constructor
  · rw [compile, compile_expr.eq_def]
    simp only
    rw [compileBlock.eq_def]
  · rw [run_as_runList]
    rfl

/-- C5: whenever an additive binary operation compiles successfully, the
compiled sequence is exactly the instructions produced for the left
operand, then the instructions produced for the right operand, then the
single `Add`; since the VM executes instructions in sequence order, the
left operand is fully evaluated before the right operand at run time. -/
theorem c5_left_compiled_before_right_before_add (t : Register) (l r : Expr)
    (out res : List Instruction) (h : compile_expr t (.binOpAdd l r) out = .ok res) :
    ∃ (lc rc : List Instruction) (tmp : Register), tmp.val = t.val + 1
      ∧ compile_expr t l out = .ok (out ++ lc)
      ∧ compile_expr tmp r (out ++ lc) = .ok (out ++ lc ++ rc)
      ∧ res = out ++ lc ++ rc ++ [.add t t tmp] := by
  rw [compile_expr.eq_def] at h
  simp only at h
  cases hl : compile_expr t l out with
  | error e => rw [hl] at h; cases h
  | ok out1 =>
      rw [hl] at h
      simp only [] at h
      by_cases h255 : t.val = 255
      · rw [dif_pos h255] at h
        cases h
      · rw [dif_neg h255] at h
        have hlt : t.val + 1 < 256 := by have := t.2; omega
        cases hr : compile_expr ⟨t.val + 1, hlt⟩ r out1 with
        | error e => rw [hr] at h; cases h
        | ok out2 =>
            rw [hr] at h
            simp only [] at h
            cases h
            obtain ⟨lc, _, hout1⟩ := compile_expr_emits t l out out1 hl
            subst hout1
            obtain ⟨rc, _, hout2⟩ := compile_expr_emits ⟨t.val + 1, hlt⟩ r (out ++ lc) out2 hr
            subst hout2
            exact ⟨lc, rc, ⟨t.val + 1, hlt⟩, rfl, rfl, hr, by simp [List.append_assoc]⟩

/-- Witness for C5 at a concrete node: compiling `a + b` into register 0
splits into the `GetName` for `a`, the `GetName` for `b`, and the `Add`. -/
theorem c5_left_compiled_before_right_before_add_witness :
    ∃ (lc rc : List Instruction) (tmp : Register), tmp.val = (0 : Register).val + 1
      ∧ compile_expr 0 (.localVar "a") [] = .ok ([] ++ lc)
      ∧ compile_expr tmp (.localVar "b") ([] ++ lc) = .ok ([] ++ lc ++ rc)
      ∧ [Instruction.getName 0 "a", .getName 1 "b", .add 0 0 1]
          = [] ++ lc ++ rc ++ [.add 0 0 tmp] :=
  c5_left_compiled_before_right_before_add 0 (.localVar "a") (.localVar "b") []
    [Instruction.getName 0 "a", .getName 1 "b", .add 0 0 1]
    (by rw [compile_expr.eq_def]
        simp only
        rw [show compile_expr 0 (Expr.localVar "a") [] = .ok [.getName 0 "a"] from by
          rw [compile_expr.eq_def]; rfl]
        simp only []
        rw [dif_neg (by decide : ¬ (0 : Register).val = 255)]
        rw [show compile_expr ⟨(0 : Register).val + 1, by decide⟩ (Expr.localVar "b")
              [.getName 0 "a"] = .ok [.getName 0 "a", .getName 1 "b"] from by
          rw [compile_expr.eq_def]; rfl]
        simp only []
        rfl)

/-- C2: compiling an additive operation first compiles the left operand
into the target register `t`; if `t` is already 255 it then fails with
RegisterExhaustion before the right operand is compiled (the failure does
not depend on the right operand); otherwise it compiles the right operand
into `t + 1` and emits one `Add` combining `t` and `t + 1` into `t`.  A
right-nested chain of `k` additive operations therefore allocates exactly
registers 0 through `k`, and for `k = 256` — which would require register
256 — compilation fails with RegisterExhaustion instead of wrapping the
register index. -/
theorem c2_linear_allocation_and_register_exhaustion :
    (∀ (l r : Expr) (out out1 : List Instruction),
        compile_expr 255 l out = .ok out1 →
        compile_expr 255 (.binOpAdd l r) out = .error .registerExhaustion)
      ∧ (∀ (t tmp : Register) (l r : Expr) (out out1 out2 : List Instruction),
          t.val ≠ 255 → tmp.val = t.val + 1 →
          compile_expr t l out = .ok out1 →
          compile_expr tmp r out1 = .ok out2 →
          compile_expr t (.binOpAdd l r) out = .ok (out2 ++ [.add t t tmp]))
      ∧ (∀ k : Nat, k ≤ 255 →
          ∃ em, compile (chain k) = .ok em
            ∧ (∀ i ∈ em, ∀ rg ∈ i.registersMentioned, rg.val ≤ k)
            ∧ (∃ i ∈ em, ∃ rg ∈ i.registersMentioned, rg.val = k))
      ∧ compile (chain 256) = .error .registerExhaustion := by
  have h0 : (0 : Register).val = 0 := rfl
  refine ⟨?_, ?_, ?_, ?_⟩
  · intro l r out out1 hl
    rw [compile_expr.eq_def]
    simp only
    rw [hl]
    simp only []
    rw [dif_pos (by decide : (255 : Register).val = 255)]
  · intro t tmp l r out out1 out2 h255 htmp hl hr
    rw [compile_expr.eq_def]
    simp only
    rw [hl]
    simp only []
    rw [dif_neg h255]
    obtain ⟨tv, tlt⟩ := tmp
    simp only [Fin.val_mk] at htmp
    subst htmp
    rw [hr]
  · intro k hk
    obtain ⟨em, hem, hbound, hreach⟩ := chain_compile_ok k 0 (by rw [h0]; omega)
    rw [h0] at hbound hreach
    exact ⟨em, hem, by simpa using hbound, by simpa using hreach⟩
  · exact chain_compile_err 256 0 (by rw [h0]; omega)

/-- Witness for C2: at register 255 the compiler rejects `1 + 1`; the
chain of one addition compiles using only registers 0 and 1, reaching
register 1; the chain of 256 additions is rejected. -/
theorem c2_linear_allocation_and_register_exhaustion_witness :
    compile_expr 255 (.binOpAdd (.const (.int 1)) (.const (.int 1))) []
        = .error .registerExhaustion
      ∧ (∃ em, compile (chain 1) = .ok em
          ∧ (∀ i ∈ em, ∀ rg ∈ i.registersMentioned, rg.val ≤ 1)
          ∧ (∃ i ∈ em, ∃ rg ∈ i.registersMentioned, rg.val = 1))
      ∧ compile (chain 256) = .error .registerExhaustion :=
  ⟨c2_linear_allocation_and_register_exhaustion.1 (.const (.int 1)) (.const (.int 1)) []
      [.intLiteral 255 1] (by simp [compile_expr]),
    c2_linear_allocation_and_register_exhaustion.2.2.1 1 (by omega),
    c2_linear_allocation_and_register_exhaustion.2.2.2⟩

/-- The compiler's rejection guard for a numeric constant is false
exactly when the constant is not NaN, lies within the 32-bit signed
range, and has zero fractional part. -/
theorem guard_false_iff (f : FloatVal) :
    (f.isNan || f.gtQ 2147483647 || f.ltQ (-2147483648) || f.fractNeZero) = false
      ↔ (f.isNan = false ∧ f.inI32Range = true ∧ f.fractIsZero = true) := by
  cases f with
  | nan => simp [FloatVal.isNan, FloatVal.gtQ, FloatVal.ltQ, FloatVal.fractNeZero,
      FloatVal.inI32Range, FloatVal.geQ, FloatVal.leQ, FloatVal.fractIsZero]
  | posInf => simp [FloatVal.isNan, FloatVal.gtQ, FloatVal.ltQ, FloatVal.fractNeZero,
      FloatVal.inI32Range, FloatVal.geQ, FloatVal.leQ, FloatVal.fractIsZero]
  | negInf => simp [FloatVal.isNan, FloatVal.gtQ, FloatVal.ltQ, FloatVal.fractNeZero,
      FloatVal.inI32Range, FloatVal.geQ, FloatVal.leQ, FloatVal.fractIsZero]
  | finite q =>
      simp only [FloatVal.isNan, FloatVal.gtQ, FloatVal.ltQ, FloatVal.fractNeZero,
        FloatVal.inI32Range, FloatVal.geQ, FloatVal.leQ, FloatVal.fractIsZero,
        Bool.or_eq_false_iff, decide_eq_false_iff_not, not_lt, Bool.and_eq_true,
        decide_eq_true_eq, not_not, true_and, and_true]
      constructor
      · rintro ⟨⟨a, b⟩, c⟩
        exact ⟨⟨b, a⟩, c⟩
      · rintro ⟨⟨a, b⟩, c⟩
        exact ⟨⟨b, a⟩, c⟩

/-- C3: a non-integer-typed numeric constant compiles — to a single
`IntLiteral` carrying its truncated integer value — if and only if it is
not NaN, lies within the 32-bit signed integer range, and has zero
fractional part; any constant violating one of those conditions makes
compilation fail with an UnsupportedConstruct error. -/
theorem c3_num_constant_accepted_iff_representable (t : Register) (f : FloatVal)
    (out : List Instruction) :
    (compile_expr t (.const (.num f)) out = .ok (out ++ [.intLiteral t f.toI32])
        ↔ (f.isNan = false ∧ f.inI32Range = true ∧ f.fractIsZero = true))
      ∧ (¬ (f.isNan = false ∧ f.inI32Range = true ∧ f.fractIsZero = true) →
          compile_expr t (.const (.num f)) out = .error .unsupportedConstruct) := by
  constructor
  · constructor
    · intro h
      rw [compile_expr.eq_def] at h
      simp only [] at h
      by_cases hg :
        (f.isNan || f.gtQ 2147483647 || f.ltQ (-2147483648) || f.fractNeZero) = true
      · rw [if_pos hg] at h
        cases h
      · rw [Bool.not_eq_true] at hg
        exact (guard_false_iff f).mp hg
    · intro hc
      have hg := (guard_false_iff f).mpr hc
      rw [compile_expr.eq_def]
      simp only []
      rw [if_neg (by simp [hg])]
  · intro hc
    have hg : (f.isNan || f.gtQ 2147483647 || f.ltQ (-2147483648) || f.fractNeZero) = true := by
      cases hgf : (f.isNan || f.gtQ 2147483647 || f.ltQ (-2147483648) || f.fractNeZero) with
      | false => exact absurd ((guard_false_iff f).mp hgf) hc
      | true => rfl
    rw [compile_expr.eq_def]
    simp only []
    rw [if_pos hg]

/-- Witness for C3: NaN is rejected with UnsupportedConstruct, and the
representable constant 2.0 compiles to a single `IntLiteral`. -/
theorem c3_num_constant_accepted_iff_representable_witness :
    compile_expr 0 (.const (.num .nan)) [] = .error .unsupportedConstruct
      ∧ compile_expr 0 (.const (.num (.finite 2))) []
          = .ok ([] ++ [.intLiteral 0 (FloatVal.toI32 (.finite 2))]) :=
  ⟨(c3_num_constant_accepted_iff_representable 0 .nan []).2
      (fun hcond => absurd hcond.1 (by simp [FloatVal.isNan])),
    (c3_num_constant_accepted_iff_representable 0 (.finite 2) []).1.mpr
      ⟨rfl, by decide, by decide⟩⟩

/-- C4: a block compiles its sub-expressions in order into the same
target register, the compiled sequence is the earlier sub-expressions'
code followed by the last sub-expression's code, and the run's result is
exactly the result of running the last sub-expression's code from the
state — registers and environment, including all variable writes of the
earlier sub-expressions — produced by running the earlier code. -/
theorem c4_block_yields_last_subexpression_value (t : Register) (init : List Expr)
    (lastE : Expr) (res : List Instruction)
    (h : compile_expr t (.block (init ++ [lastE])) [] = .ok res) :
    ∃ (mid lc : List Instruction), compile_expr t (.block init) [] = .ok mid
      ∧ compile_expr t lastE mid = .ok (mid ++ lc)
      ∧ res = mid ++ lc
      ∧ ∀ vm vm1 : VM, runList vm mid = .ok vm1 → VM.run vm res = VM.run vm1 lc := by
  rw [compile_expr.eq_def] at h
  simp only [] at h
  rw [compileBlock_append] at h
  cases hm : compileBlock t init [] with
  | error e => rw [hm] at h; cases h
  | ok mid =>
      rw [hm] at h
      simp only [] at h
      rw [compileBlock.eq_def] at h
      simp only [] at h
      cases hl : compile_expr t lastE mid with
      | error e => rw [hl] at h; cases h
      | ok out1 =>
          rw [hl] at h
          simp only [] at h
          rw [compileBlock.eq_def] at h
          cases h
          obtain ⟨lc, _, hout1⟩ := compile_expr_emits t lastE mid res hl
          subst hout1
          refine ⟨mid, lc, ?_, hl, rfl, ?_⟩
          · rw [compile_expr.eq_def]
            simp only []
            exact hm
          · intro vm vm1 hrun
            rw [run_as_runList vm (mid ++ lc), run_as_runList vm1 lc]
            rw [runList_append, hrun]
            simp [Except.bind]

/-- Witness for C4: the block `[x = 3, x]` splits into the assignment's
code and the final `GetName`, and running it from a fresh VM equals
running just the `GetName` from the state the assignment produced. -/
theorem c4_block_yields_last_subexpression_value_witness :
    ∃ (mid lc : List Instruction),
      compile_expr 0 (.block [.assign (.localVar "x") (.const (.int 3))]) [] = .ok mid
      ∧ compile_expr 0 (.localVar "x") mid = .ok (mid ++ lc)
      ∧ [Instruction.intLiteral 0 3, .setName "x" 0, .getName 0 "x"] = mid ++ lc
      ∧ ∀ vm vm1 : VM, runList vm mid = .ok vm1 →
          VM.run vm [Instruction.intLiteral 0 3, .setName "x" 0, .getName 0 "x"]
            = VM.run vm1 lc :=
  c4_block_yields_last_subexpression_value 0 [.assign (.localVar "x") (.const (.int 3))]
    (.localVar "x") [Instruction.intLiteral 0 3, .setName "x" 0, .getName 0 "x"]
    (by simp [compile_expr, compileBlock])

/-- Compiling the example block `[x = 3, x + x]` produces exactly these
five instructions. -/
theorem compile_prog6_eq :
    compile prog6 = .ok [.intLiteral 0 3, .setName "x" 0,
      .getName 0 "x", .getName 1 "x", .add 0 0 1] := by
  simp [prog6, compile, compile_expr, compileBlock,
    show ¬((0 : Register).val = 255) from by decide]

/-- C6 counterexample: the compiled program for the block `[x = 3, x + x]`
has 5 instructions, not 3 as claimed. -/
theorem c6_three_instructions_counterexample :
    (compile prog6).map List.length = .ok 5
      ∧ (compile prog6).map List.length ≠ .ok 3 := by
  rw [compile_prog6_eq]
  exact ⟨rfl, by simp [Except.map]⟩

/-- C6 amended: compiling the tree for the block `[x = 3, x + x]`
produces a program of 5 instructions — `IntLiteral`, `SetName`, then for
`x + x` a `GetName` into register 0, a `GetName` into register 1, and an
`Add` — and running that program on a fresh VM yields 6. -/
theorem c6_five_instructions_run_yields_six :
    compile prog6 = .ok [.intLiteral 0 3, .setName "x" 0,
        .getName 0 "x", .getName 1 "x", .add 0 0 1]
      ∧ VM.run (VM.new emptyEnv) [.intLiteral 0 3, .setName "x" 0,
          .getName 0 "x", .getName 1 "x", .add 0 0 1] = .ok (.integer 6) := by
  refine ⟨compile_prog6_eq, ?_⟩
  rw [run_as_runList]
  rfl

end BoaVM
